import Mathlib

/-!
# CriptifyWeb: the byte-shift codec of `EncryptionTool.jsx`

A shallow embedding of the two functions that make up the core of
`src/app/components/EncryptionTool.jsx`:

* `calculateKey` (lines 16-28): the key string is stripped of everything but
  ASCII digits, parsed with `parseInt`, printed back with `toString`, and the
  characters of that rendering are converted with `Number` and added up;
* `processFile` (lines 30-99): the guards, the byte loop
  `outputBytes[i] = (bytes[i] + shift) & 0xFF` and the choice of the
  download name.

JavaScript values are modelled as follows.

* A string is a Lean `String`; `replace`, `split`, `endsWith` and `slice` act
  on its list of characters.  (The only characters these operations look at
  here are ASCII, so acting on code points or on UTF-16 code units is the
  same.)
* The Number held by `num` is a non-negative integer that is a double, or
  `Infinity`: `Parsed`.  `parseInt` rounds the mathematical value of the digit
  string to the nearest double, ties to even (`toDouble`).
* The Numbers held by `sum`, `calculatedKey` and `shift` are integers, an
  infinity or `NaN`: `Num`.  The operator `+` gives the double nearest to the
  exact sum (`Num.add`), so a sum is exact only while its magnitude stays at
  or below `2^53`; that is the case for a byte added to a shift `S` with
  `|S| ≤ 2^53 - 255`, hence for every integer `calculateKey` returns.
* A `Uint8Array` is a list of `Byte = Fin 256`.
-/

namespace EncryptionTool

/-! ## Numbers -/

/-- The value of `num` in `calculateKey`: a non-negative integer-valued
double, or `Infinity`. -/
inductive Parsed where
  | finite (v : Nat)
  | infinity
  deriving DecidableEq, Repr

/-- The Numbers that `sum`, `calculatedKey` and `shift` can hold: an integer
(`int v` is the Number whose value is `v`), `Infinity` or `-Infinity`, or
`NaN`. -/
inductive Num where
  | int (v : Int)
  | inf (negative : Bool)
  | nan
  deriving DecidableEq, Repr

/-- The loop behind `bitLength`: one step for each binary digit. -/
def bitLengthAux : Nat → Nat → Nat
  | 0, _ => 0
  | fuel + 1, n => if n = 0 then 0 else bitLengthAux fuel (n / 2) + 1

/-- The number of binary digits of `n`. -/
def bitLength (n : Nat) : Nat := bitLengthAux n n

/-- The Number value of a non-negative mathematical integer: the nearest
double, ties to the even significand.  Integers below `2^53` are doubles; a
larger one keeps its 53 leading binary digits `q` and the exponent `e`, and is
rounded on the rest `r`.  The largest double is `(2^53 - 1) * 2^971`; what
rounds above it is `Infinity`. -/
def toDouble (n : Nat) : Parsed :=
  if n < 2 ^ 53 then .finite n
  else
    let e := bitLength n - 53
    let q := n / 2 ^ e
    let r := n % 2 ^ e
    let q1 := if 2 ^ e < 2 * r ∨ (2 * r = 2 ^ e ∧ q % 2 = 1) then q + 1 else q
    if e < 971 ∨ (e = 971 ∧ q1 < 2 ^ 53) then .finite (q1 * 2 ^ e) else .infinity

namespace Num

/-- The Number value of a mathematical integer of either sign: the magnitude is
rounded by `toDouble`, the sign is kept. -/
def ofInt (x : Int) : Num :=
  match toDouble x.natAbs with
  | .finite v => int (if x < 0 then -(v : Int) else (v : Int))
  | .infinity => inf (decide (x < 0))

/-- The operator `+` on two Numbers (`sum += d`, `bytes[i] + shift`): the
double nearest to the exact sum, ties to even. -/
def add : Num → Num → Num
  | int a, int b => ofInt (a + b)
  | int _, inf s => inf s
  | inf s, int _ => inf s
  | inf s, inf t => if s = t then inf s else nan
  | _, _ => nan

/-- The unary minus of `-calculatedKey`. -/
def neg : Num → Num
  | int a => int (-a)
  | inf s => inf (!s)
  | nan => nan

/-- The test `calculatedKey === 0`. -/
def strictEqZero : Num → Bool
  | int v => v == 0
  | _ => false

end Num

/-! ## `calculateKey` -/

/-- The numeric value of a decimal digit character. -/
def digitValue (c : Char) : Nat := c.toNat - 48

/-- The filtered string `inputStr.replace(/[^0-9]/g, '')`: every character
outside `'0'..'9'` is deleted. -/
def cleanInput (inputStr : String) : List Char :=
  inputStr.data.filter Char.isDigit

/-- The mathematical integer that a string of decimal digits denotes. -/
def mathInt (ds : List Char) : Nat :=
  ds.foldl (fun acc c => 10 * acc + digitValue c) 0

/-- The call `parseInt(cleanInput, 10)` on a non-empty string of decimal
digits (the only strings `calculateKey` passes to it): the Number value of the
integer the digits denote.  (ECMAScript lets an engine replace the digits after
the 20th significant one by zeros first; no statement below depends on which
of the two an engine does.) -/
def parseInt (ds : List Char) : Parsed := toDouble (mathInt ds)

/-- Does the multiple `c` of a power of ten round to the double `v`? -/
def roundsTo (c v : Nat) : Bool := toDouble c == .finite v

/-- The decimal candidates with `m` trailing zeros for printing the double
`v`: of the two multiples of `10^m` around `v`, those that round to `v`; when
both do, the one nearer to `v`, and at equal distance the one whose digit
before the zeros is even. -/
def shortestAt (v m : Nat) : Option Nat :=
  let low := v / 10 ^ m * 10 ^ m
  let high := low + 10 ^ m
  match (decide (0 < low) && roundsTo low v), roundsTo high v with
  | true, true =>
      if v - low < high - v then some low
      else if high - v < v - low then some high
      else if (low / 10 ^ m) % 2 = 0 then some low else some high
  | true, false => some low
  | false, true => some high
  | false, false => none

/-- The search for the shortest decimal that rounds to `v`: the largest
number `m` of trailing zeros, from `m` downwards, for which a candidate
exists; with no trailing zero the candidate is `v` itself. -/
def shortestFrom (v : Nat) : Nat → Nat
  | 0 => v
  | m + 1 =>
    match shortestAt v (m + 1) with
    | some c => c
    | none => shortestFrom v m

/-- The integer `s * 10^(n-k)` of `Number::toString`: the decimal with the
fewest significant digits that rounds to the double `v`. -/
def shortest (v : Nat) : Nat := shortestFrom v (Nat.toDigits 10 v).length

/-- Drop the zeros at the end of a digit string. -/
def stripTrailingZeros (ds : List Char) : List Char :=
  (ds.reverse.dropWhile (fun c => c == '0')).reverse

/-- The scientific rendering of `Number::toString` for a decimal with `n > 21`
digits: the first significant digit, a point and the other significant digits
when there are any, then `e+` and `n - 1`. -/
def exponential (ds : List Char) : List Char :=
  let sig := stripTrailingZeros ds
  sig.take 1 ++ (if 1 < sig.length then '.' :: sig.drop 1 else []) ++
    'e' :: '+' :: Nat.toDigits 10 (ds.length - 1)

/-- The call `num.toString()`: `"Infinity"`, `"0"`, the digits of the shortest
decimal that rounds to `num` when it has at most 21 of them, and the
scientific rendering otherwise.  Among several shortest decimals the nearest
one is printed, as ECMAScript recommends and the engines do. -/
def numberToString : Parsed → List Char
  | .infinity => "Infinity".data
  | .finite v =>
    if v = 0 then ['0']
    else
      let ds := Nat.toDigits 10 (shortest v)
      if ds.length ≤ 21 then ds else exponential ds

/-- The white space and line terminators that `Number` strips from a string. -/
def isWhiteSpace (c : Char) : Bool :=
  c.toNat ∈ [0x09, 0x0A, 0x0B, 0x0C, 0x0D, 0x20, 0xA0, 0x1680, 0x2028, 0x2029,
    0x202F, 0x205F, 0x3000, 0xFEFF] || (0x2000 ≤ c.toNat && c.toNat ≤ 0x200A)

/-- The call `Number(c)` on a one-character string, as `map(Number)` makes it:
a digit gives its value, white space gives 0, anything else `NaN`. -/
def toNumber (c : Char) : Num :=
  if c.isDigit then .int (digitValue c)
  else if isWhiteSpace c then .int 0
  else .nan

/-- Lines 22-27 of `calculateKey`: the characters of `num.toString()` are
converted with `Number` and added to `sum`, which starts at 0. -/
def keySum (num : Parsed) : Num :=
  let digits := (numberToString num).map toNumber
  digits.foldl (fun sum d => Num.add sum d) (.int 0)

/-- The function `calculateKey` (lines 17-28). -/
def calculateKey (inputStr : String) : Num :=
  let cleanInput := cleanInput inputStr
  if cleanInput.isEmpty then .int 0
  else
    let num := parseInt cleanInput
    keySum num

/-- The sum of the decimal values of the digit characters of a string: what
the specification calls the digit sum of the key. -/
def digitCharSum (inputStr : String) : Nat :=
  ((inputStr.data.filter Char.isDigit).map digitValue).sum

/-! ## `processFile` -/

/-- An element of a `Uint8Array`. -/
abbrev Byte := Fin 256

/-- The argument `selectedMode`: the two buttons call `processFile('encrypt')`
and `processFile('decrypt')`. -/
inductive Mode where
  | encrypt
  | decrypt
  deriving DecidableEq, Repr

/-- The selected file as far as `processFile` uses it: `file.name` and the
bytes of `file.arrayBuffer()`. -/
structure File where
  name : String
  bytes : List Byte
  deriving DecidableEq, Repr

/-- The abstract operation `ToInt32`: `NaN` and the infinities give 0, an
integer is reduced modulo `2^32` into `-2^31 .. 2^31 - 1`. -/
def toInt32 : Num → Int
  | .int v =>
    let int32bit := v % 2 ^ 32
    if int32bit ≥ 2 ^ 31 then int32bit - 2 ^ 32 else int32bit
  | _ => 0

/-- The operator `&`: both operands go through `ToInt32`, their 32-bit two's
complement patterns are combined bit by bit, and the pattern obtained is read
as a signed 32-bit integer. -/
def bitwiseAnd (a b : Num) : Int :=
  let lbits := (toInt32 a % 2 ^ 32).toNat
  let rbits := (toInt32 b % 2 ^ 32).toNat
  let bits : Nat := lbits &&& rbits
  if bits ≥ 2 ^ 31 then (bits : Int) - 2 ^ 32 else bits

/-- The store of a Number into a `Uint8Array` element (`ToUint8`): the value
modulo 256. -/
def toUint8 (x : Int) : Byte := ⟨(x % 256).toNat, by omega⟩

/-- Line 63: `shift = selectedMode === 'encrypt' ? -calculatedKey : calculatedKey`. -/
def shift (selectedMode : Mode) (calculatedKey : Num) : Num :=
  match selectedMode with
  | .encrypt => Num.neg calculatedKey
  | .decrypt => calculatedKey

/-- The right-hand side of line 67: `(bytes[i] + shift) & 0xFF`. -/
def shiftedByte (b : Byte) (shift : Num) : Int :=
  bitwiseAnd (Num.add (.int b.val) shift) (.int 0xFF)

/-- Lines 56 and 66-68: `outputBytes` starts as `bytes.length` zeros, and the
loop stores `(bytes[i] + shift) & 0xFF` at every index `i` below
`bytes.length`, in increasing order. -/
def processBytes (bytes : List Byte) (shift : Num) : List Byte :=
  (List.range bytes.length).foldl
    (fun outputBytes i => outputBytes.set i (toUint8 (shiftedByte (bytes.getD i 0) shift)))
    (List.replicate bytes.length 0)

/-- The specification's `effectiveShift`: `-shift` in Encrypt mode, `+shift`
otherwise. -/
def effectiveShift (mode : Mode) (S : Int) : Int :=
  match mode with
  | .encrypt => -S
  | .decrypt => S

/-- The test `file.name.endsWith('.enc')`. -/
def endsWithEnc (name : String) : Bool := ".enc".data.isSuffixOf name.data

/-- Lines 76-83: the name of the download. -/
def newName (name : String) (selectedMode : Mode) : String :=
  match selectedMode with
  | .encrypt => name ++ ".enc"
  | .decrypt =>
    if endsWithEnc name then String.mk (name.data.take (name.data.length - 4))
    else "decrypted_" ++ name

/-- What a call of `processFile` does: it returns at one of the three error
checks, or it offers `outputBytes` for download under `newName`. -/
inductive Outcome where
  | noFileSelected
  | noKeyEntered
  | keyIsZero
  | downloaded (newName : String) (outputBytes : List Byte)
  deriving DecidableEq, Repr

/-- Lines 47-92 of `processFile`, reached once the three checks have passed,
for the value `calculatedKey` that `calculateKey` returned. -/
def processWithKey (file : File) (calculatedKey : Num) (selectedMode : Mode) : Outcome :=
  .downloaded (newName file.name selectedMode)
    (processBytes file.bytes (shift selectedMode calculatedKey))

/-- The function `processFile` (lines 30-99); `file` and `keyInput` are the
component state it reads. -/
def processFile (file : Option File) (keyInput : String) (selectedMode : Mode) : Outcome :=
  match file with
  | none => .noFileSelected
  | some file =>
    if keyInput.data.isEmpty then .noKeyEntered
    else
      let calculatedKey := calculateKey keyInput
      if calculatedKey.strictEqZero then .keyIsZero
      else processWithKey file calculatedKey selectedMode

/-! ## Auxiliary facts -/

/-! ### Decimal digits -/

theorem digitValue_lt {c : Char} (h : c.isDigit = true) : digitValue c < 10 := by
  simp only [Char.isDigit, Bool.and_eq_true, decide_eq_true_eq] at h
  have h2 : c.val.toNat ≤ 57 := h.2
  simp only [digitValue, Char.toNat]
  omega

theorem digitValue_eq_zero {c : Char} (h : c.isDigit = true) : digitValue c = 0 ↔ c = '0' := by
  simp only [Char.isDigit, Bool.and_eq_true, decide_eq_true_eq] at h
  have h1 : 48 ≤ c.val.toNat := h.1
  constructor
  · intro h0
    simp only [digitValue, Char.toNat] at h0
    apply Char.ext
    apply UInt32.ext
    show c.val.toNat = 48
    omega
  · rintro rfl
    rfl

theorem toNumber_digitChar {d : Nat} (h : d < 10) : toNumber (Nat.digitChar d) = .int d := by
  interval_cases d <;> rfl

/-- The decimal rendering of a positive integer, digit by digit. -/
theorem toDigitsCore_eq (fuel : Nat) : ∀ (n : Nat) (acc : List Char), n < fuel → 0 < n →
    Nat.toDigitsCore 10 fuel n acc = ((Nat.digits 10 n).reverse.map Nat.digitChar) ++ acc := by
  induction fuel with
  | zero => intro n acc h; omega
  | succ fuel ih =>
    intro n acc hn h0
    rw [Nat.toDigitsCore]
    rw [Nat.digits_def' (by norm_num) h0]
    by_cases h10 : n / 10 = 0
    · simp [h10]
    · simp only [if_neg h10]
      rw [ih (n / 10) _ (by omega) (by omega)]
      simp

theorem toDigits_eq {n : Nat} (h0 : 0 < n) :
    Nat.toDigits 10 n = (Nat.digits 10 n).reverse.map Nat.digitChar := by
  rw [Nat.toDigits, toDigitsCore_eq (n + 1) n [] (by omega) h0, List.append_nil]

/-- An integer of magnitude at most `2^53` is a double. -/
theorem ofInt_exact {x : Int} (h : x.natAbs ≤ 2 ^ 53) : Num.ofInt x = .int x := by
  have htd : toDouble x.natAbs = .finite x.natAbs := by
    rcases Nat.lt_or_eq_of_le h with hlt | heq
    · unfold toDouble
      rw [if_pos hlt]
    · rw [heq]
      decide
  simp only [Num.ofInt, htd]
  congr 1
  split_ifs <;> omega

/-- Two integers whose sum has magnitude at most `2^53` are added exactly. -/
theorem add_int_exact {a b : Int} (h : (a + b).natAbs ≤ 2 ^ 53) :
    Num.add (.int a) (.int b) = .int (a + b) :=
  ofInt_exact h

theorem foldl_add_int (l : List Nat) (a : Int) (ha : 0 ≤ a)
    (h : a + Int.ofNat l.sum ≤ 2 ^ 53) :
    (l.map (fun d : Nat => Num.int (Int.ofNat d))).foldl (fun sum d => Num.add sum d) (.int a) =
      .int (a + Int.ofNat l.sum) := by
  induction l generalizing a with
  | nil => simp
  | cons d l ih =>
    simp only [List.sum_cons, Int.ofNat_eq_coe, Nat.cast_add] at h
    rw [List.map_cons, List.foldl_cons,
      add_int_exact (by simp only [Int.ofNat_eq_coe]; omega),
      ih _ (by simp only [Int.ofNat_eq_coe]; omega)
        (by simp only [Int.ofNat_eq_coe]; omega), List.sum_cons]
    simp only [Int.ofNat_eq_coe]
    push_cast
    rw [add_assoc]

theorem foldl_add_nan (l : List Num) :
    l.foldl (fun sum d => Num.add sum d) .nan = .nan := by
  induction l with
  | nil => rfl
  | cons d l ih =>
    rw [List.foldl_cons]
    have : Num.add .nan d = .nan := by cases d <;> rfl
    rw [this, ih]

theorem foldl_add_of_mem_nan (l : List Num) (a : Num) (h : Num.nan ∈ l) :
    l.foldl (fun sum d => Num.add sum d) a = .nan := by
  induction l generalizing a with
  | nil => simp at h
  | cons d l ih =>
    rw [List.foldl_cons]
    rcases List.mem_cons.mp h with h | h
    · subst h
      have : Num.add a .nan = .nan := by cases a <;> rfl
      rw [this, foldl_add_nan]
    · exact ih _ h

/-- The sum that `calculateKey` forms over the decimal rendering of a positive
integer is the sum of its decimal digits. -/
theorem sum_toDigits {c : Nat} (h0 : 0 < c) (hlen : (Nat.digits 10 c).length ≤ 21) :
    ((Nat.toDigits 10 c).map toNumber).foldl (fun sum d => Num.add sum d) (.int 0) =
      .int (Int.ofNat (Nat.digits 10 c).sum) := by
  have hsum : (Nat.digits 10 c).reverse.sum ≤ 9 * 21 := by
    rw [List.sum_reverse]
    have h9 : (Nat.digits 10 c).sum ≤ (Nat.digits 10 c).length • 9 :=
      List.sum_le_card_nsmul _ 9 (fun d hd => by
        have := Nat.digits_lt_base (b := 10) (m := c) (by norm_num) hd
        omega)
    simp only [smul_eq_mul] at h9
    omega
  rw [toDigits_eq h0, List.map_map]
  have : List.map (toNumber ∘ Nat.digitChar) (Nat.digits 10 c).reverse =
      (Nat.digits 10 c).reverse.map (fun d : Nat => Num.int (Int.ofNat d)) := by
    apply List.map_congr_left
    intro d hd
    exact toNumber_digitChar (Nat.digits_lt_base (by norm_num) (List.mem_reverse.mp hd))
  rw [this, foldl_add_int _ _ le_rfl (by simp only [Int.ofNat_eq_coe]; omega), List.sum_reverse]
  simp

theorem digits_sum_pos {c : Nat} (h0 : 0 < c) : 0 < (Nat.digits 10 c).sum := by
  by_contra h
  have hz : (Nat.digits 10 c).sum = 0 := by omega
  rw [List.sum_eq_zero_iff] at hz
  have hne : Nat.digits 10 c ≠ [] := Nat.digits_ne_nil_iff_ne_zero.mpr (by omega)
  exact Nat.getLast_digit_ne_zero 10 (by omega) (hz _ (List.getLast_mem hne))

theorem length_toDigits {c : Nat} (h0 : 0 < c) :
    (Nat.toDigits 10 c).length = (Nat.digits 10 c).length := by
  rw [toDigits_eq h0]
  simp

/-! ### Binary length -/

theorem bitLengthAux_zero (fuel : Nat) : bitLengthAux fuel 0 = 0 := by
  cases fuel <;> simp [bitLengthAux]

theorem bitLengthAux_spec (fuel : Nat) : ∀ n, n ≤ fuel → n ≠ 0 →
    2 ^ (bitLengthAux fuel n - 1) ≤ n ∧ n < 2 ^ bitLengthAux fuel n := by
  induction fuel with
  | zero => intro n h h0; omega
  | succ fuel ih =>
    intro n hn h0
    simp only [bitLengthAux, if_neg h0]
    by_cases h2 : n / 2 = 0
    · rw [h2, bitLengthAux_zero]
      simp
      omega
    · obtain ⟨hlo, hhi⟩ := ih (n / 2) (by omega) h2
      have hk : bitLengthAux fuel (n / 2) ≠ 0 := by
        intro hk
        rw [hk] at hhi
        simp at hhi
        exact h2 hhi
      obtain ⟨k, hk⟩ := Nat.exists_eq_succ_of_ne_zero hk
      rw [hk] at hlo hhi ⊢
      simp only [Nat.succ_eq_add_one, Nat.add_sub_cancel] at hlo hhi ⊢
      rw [pow_succ] at hhi ⊢
      constructor <;> omega

theorem bitLength_spec (n : Nat) (h0 : n ≠ 0) :
    2 ^ (bitLength n - 1) ≤ n ∧ n < 2 ^ bitLength n :=
  bitLengthAux_spec n n le_rfl h0

/-! ### Rounding to a double -/

theorem toDouble_of_lt {n : Nat} (h : n < 2 ^ 53) : toDouble n = .finite n := by
  unfold toDouble
  rw [if_pos h]

/-- Rounding never takes an integer from `2^53` on below `2^53`. -/
theorem toDouble_ge {n v : Nat} (h : 2 ^ 53 ≤ n) (hv : toDouble n = .finite v) :
    2 ^ 53 ≤ v := by
  have h0 : n ≠ 0 := by
    rintro rfl
    simp at h
  obtain ⟨hlo, hhi⟩ := bitLength_spec n h0
  have hbl : 53 < bitLength n := by
    by_contra hc
    have : 2 ^ bitLength n ≤ 2 ^ 53 := Nat.pow_le_pow_right (by norm_num) (by omega)
    omega
  obtain ⟨e, he⟩ : ∃ e, bitLength n = e + 1 + 53 := ⟨bitLength n - 54, by omega⟩
  have hq : 2 ^ 52 ≤ n / 2 ^ (e + 1) := by
    rw [Nat.le_div_iff_mul_le (by positivity), ← pow_add]
    have : bitLength n - 1 = 52 + (e + 1) := by omega
    rw [this] at hlo
    exact hlo
  have key : ∀ q1, n / 2 ^ (e + 1) ≤ q1 → 2 ^ 53 ≤ q1 * 2 ^ (e + 1) := by
    intro q1 hq1
    have h2 : (2 : Nat) ^ 1 ≤ 2 ^ (e + 1) := Nat.pow_le_pow_right (by norm_num) (by omega)
    calc 2 ^ 53 = 2 ^ 52 * 2 ^ 1 := by norm_num
      _ ≤ q1 * 2 ^ (e + 1) := Nat.mul_le_mul (by omega) h2
  simp only [toDouble, if_neg (not_lt.mpr h), he, Nat.add_sub_cancel] at hv
  split_ifs at hv <;> injection hv with hv <;> rw [← hv] <;> apply key <;> omega

theorem toDouble_pos {n v : Nat} (h : 0 < n) (hv : toDouble n = .finite v) : 0 < v := by
  by_cases hn : n < 2 ^ 53
  · rw [toDouble_of_lt hn] at hv
    injection hv with hv
    omega
  · have := toDouble_ge (not_lt.mp hn) hv
    exact lt_of_lt_of_le (by norm_num) this

theorem roundsTo_eq {c v : Nat} (hv : v < 2 ^ 53) (h : roundsTo c v = true) : c = v := by
  simp only [roundsTo, beq_iff_eq] at h
  by_cases hc : c < 2 ^ 53
  · rw [toDouble_of_lt hc] at h
    injection h
  · have := toDouble_ge (not_lt.mp hc) h
    omega

/-! ### The shortest decimal -/

theorem shortestAt_pos {v m c : Nat} (h : shortestAt v m = some c) : 0 < c := by
  have hpow : 0 < 10 ^ m := by positivity
  simp only [shortestAt] at h
  split at h
  · rename_i h1 h2
    simp only [Bool.and_eq_true, decide_eq_true_eq] at h1
    split_ifs at h <;> injection h <;> omega
  · rename_i h1 h2
    simp only [Bool.and_eq_true, decide_eq_true_eq] at h1
    injection h; omega
  · injection h; omega
  · exact absurd h (by simp)

theorem shortestFrom_pos {v : Nat} (hv : 0 < v) (m : Nat) : 0 < shortestFrom v m := by
  induction m with
  | zero => exact hv
  | succ m ih =>
    simp only [shortestFrom]
    split
    · exact shortestAt_pos (by assumption)
    · exact ih

theorem shortestAt_small {v : Nat} (hv : v < 2 ^ 53) (m : Nat) :
    shortestAt v m = none ∨ shortestAt v m = some v := by
  have hpow : 0 < 10 ^ m := by positivity
  have hlow : v / 10 ^ m * 10 ^ m ≤ v := Nat.div_mul_le_self v (10 ^ m)
  have hhigh : v < v / 10 ^ m * 10 ^ m + 10 ^ m := Nat.lt_div_mul_add hpow
  have h2 : roundsTo (v / 10 ^ m * 10 ^ m + 10 ^ m) v = false := by
    by_contra hc
    have := roundsTo_eq hv (by simpa using hc)
    omega
  simp only [shortestAt, h2]
  split
  · simp_all
  · rename_i h1 _
    simp only [Bool.and_eq_true, decide_eq_true_eq] at h1
    right
    rw [roundsTo_eq hv h1.2]
  · simp_all
  · left; rfl

/-- An integer below `2^53` is printed with all its digits: no other decimal
rounds to it. -/
theorem shortestFrom_small {v : Nat} (hv : v < 2 ^ 53) (m : Nat) : shortestFrom v m = v := by
  induction m with
  | zero => rfl
  | succ m ih =>
    simp only [shortestFrom]
    rcases shortestAt_small hv (m + 1) with h | h <;> rw [h]
    exact ih

theorem shortest_small {v : Nat} (hv : v < 2 ^ 53) : shortest v = v :=
  shortestFrom_small hv _

theorem shortest_pos {v : Nat} (hv : 0 < v) : 0 < shortest v :=
  shortestFrom_pos hv _

theorem toInt32_int_emod (x : Int) : toInt32 (.int x) % 2 ^ 32 = x % 2 ^ 32 := by
  simp only [toInt32]
  split <;> omega

theorem land_255 (n : Nat) : n &&& 255 = n % 256 :=
  Nat.and_pow_two_sub_one_eq_mod n 8

/-- The value of `(bytes[i] + shift) & 0xFF` lies in `0..255`, whatever the
shift. -/
theorem shiftedByte_range (b : Byte) (s : Num) :
    0 ≤ shiftedByte b s ∧ shiftedByte b s ≤ 255 := by
  have h255 : ((255 : Int) % 2 ^ 32).toNat = 255 := by decide
  simp only [shiftedByte, bitwiseAnd, toInt32_int_emod, h255, land_255]
  generalize (toInt32 (Num.add (Num.int b.val) s) % 2 ^ 32).toNat = l
  have h1 : l % 256 < 256 := Nat.mod_lt _ (by norm_num)
  rw [if_neg (by omega)]
  omega

/-- For an integer shift of magnitude at most `2^53 - 255` the sum
`bytes[i] + shift` is exact, and `(bytes[i] + shift) & 0xFF` is its
non-negative remainder modulo 256. -/
theorem shiftedByte_int (b : Byte) (S : Int) (hS : |S| ≤ 2 ^ 53 - 255) :
    shiftedByte b (.int S) = ((b.val : Int) + S) % 256 := by
  have h255 : ((255 : Int) % 2 ^ 32).toNat = 255 := by decide
  have hb := b.isLt
  have hS2 := abs_le.mp hS
  rw [shiftedByte, add_int_exact (by omega)]
  simp only [bitwiseAnd, toInt32_int_emod, h255, land_255]
  have h1 : ((((b.val : Int) + S) % 2 ^ 32).toNat % 256 : Nat) < 256 := Nat.mod_lt _ (by norm_num)
  rw [if_neg (by omega)]
  omega

/-- With a `NaN` shift the loop stores 0: `ToInt32(NaN)` is 0. -/
theorem shiftedByte_nan (b : Byte) : shiftedByte b .nan = 0 := by
  simp [shiftedByte, bitwiseAnd, Num.add, toInt32]

theorem length_foldl_set {α : Type} (g : Nat → α) (is : List Nat) (out : List α) :
    (is.foldl (fun o i => o.set i (g i)) out).length = out.length := by
  induction is generalizing out with
  | nil => rfl
  | cons i is ih => simp [ih]

theorem getElem?_foldl_range_set {α : Type} (g : Nat → α) (n : Nat) (out : List α) (j : Nat) :
    ((List.range n).foldl (fun o i => o.set i (g i)) out)[j]? =
      if j < n ∧ j < out.length then some (g j) else out[j]? := by
  induction n with
  | zero => simp
  | succ n ih =>
    rw [List.range_succ, List.foldl_append, List.foldl_cons, List.foldl_nil,
      List.getElem?_set, ih, length_foldl_set]
    by_cases hjn : n = j
    · subst hjn
      by_cases hl : n < out.length
      · simp [hl]
      · simp [hl]
        omega
    · by_cases hj : j < n
      · have : j < n + 1 := by omega
        simp [hjn, hj, this]
      · have : ¬ j < n + 1 := by omega
        simp [hjn, hj, this]

/-- The index loop computes the element-wise image of its input. -/
theorem processBytes_eq_map (bytes : List Byte) (s : Num) :
    processBytes bytes s = bytes.map (fun b => toUint8 (shiftedByte b s)) := by
  apply List.ext_getElem?
  intro j
  unfold processBytes
  rw [getElem?_foldl_range_set (fun i => toUint8 (shiftedByte (bytes.getD i 0) s))]
  by_cases hj : j < bytes.length
  · simp [hj, List.getD_eq_getElem?_getD, List.getElem?_eq_getElem hj]
  · have h1 : (List.replicate bytes.length (0 : Byte))[j]? = none :=
      List.getElem?_eq_none (by simp; omega)
    have h2 : bytes[j]? = none := List.getElem?_eq_none (by omega)
    simp [hj, h1, h2]

/-! ### The parsed value of a digit string -/

theorem digits_sum_step {acc d : Nat} (hd : d < 10) :
    (Nat.digits 10 (10 * acc + d)).sum = (Nat.digits 10 acc).sum + d := by
  by_cases h : d = 0 ∧ acc = 0
  · obtain ⟨rfl, rfl⟩ := h
    simp
  · rw [Nat.add_comm (10 * acc) d, Nat.digits_add 10 (by norm_num) d acc hd (by omega)]
    simp [Nat.add_comm]

theorem digits_sum_foldl (ds : List Char) (hds : ∀ c ∈ ds, c.isDigit = true) (acc : Nat) :
    (Nat.digits 10 (ds.foldl (fun acc c => 10 * acc + digitValue c) acc)).sum =
      (Nat.digits 10 acc).sum + (ds.map digitValue).sum := by
  induction ds generalizing acc with
  | nil => simp
  | cons c ds ih =>
    rw [List.foldl_cons, ih (fun x hx => hds x (List.mem_cons_of_mem _ hx)),
      digits_sum_step (digitValue_lt (hds c (List.mem_cons_self _ _)))]
    simp [Nat.add_assoc]

theorem digits_sum_mathInt (ds : List Char) (hds : ∀ c ∈ ds, c.isDigit = true) :
    (Nat.digits 10 (mathInt ds)).sum = (ds.map digitValue).sum := by
  simpa [mathInt] using digits_sum_foldl ds hds 0

theorem foldl_succ_le (ds : List Char) (hds : ∀ c ∈ ds, c.isDigit = true) (acc : Nat) :
    ds.foldl (fun acc c => 10 * acc + digitValue c) acc + 1 ≤ (acc + 1) * 10 ^ ds.length := by
  induction ds generalizing acc with
  | nil => simp
  | cons c ds ih =>
    rw [List.foldl_cons, List.length_cons, pow_succ]
    have hc := digitValue_lt (hds c (List.mem_cons_self _ _))
    calc _ ≤ (10 * acc + digitValue c + 1) * 10 ^ ds.length :=
          ih (fun x hx => hds x (List.mem_cons_of_mem _ hx)) _
      _ ≤ ((acc + 1) * 10) * 10 ^ ds.length := Nat.mul_le_mul_right _ (by omega)
      _ = (acc + 1) * (10 ^ ds.length * 10) := by ring

theorem mathInt_lt (ds : List Char) (hds : ∀ c ∈ ds, c.isDigit = true) :
    mathInt ds < 10 ^ ds.length := by
  have := foldl_succ_le ds hds 0
  simp only [mathInt]
  omega

theorem foldl_eq_zero (ds : List Char) (acc : Nat) :
    ds.foldl (fun acc c => 10 * acc + digitValue c) acc = 0 ↔
      acc = 0 ∧ ∀ c ∈ ds, digitValue c = 0 := by
  induction ds generalizing acc with
  | nil => simp
  | cons c ds ih =>
    rw [List.foldl_cons, ih]
    simp only [List.mem_cons, forall_eq_or_imp]
    constructor
    · rintro ⟨h1, h2⟩
      exact ⟨by omega, by omega, h2⟩
    · rintro ⟨h1, h2, h3⟩
      exact ⟨by omega, h3⟩

theorem mathInt_eq_zero (ds : List Char) (hds : ∀ c ∈ ds, c.isDigit = true) :
    mathInt ds = 0 ↔ ∀ c ∈ ds, c = '0' := by
  simp only [mathInt, foldl_eq_zero, true_and]
  constructor
  · intro h c hc
    exact (digitValue_eq_zero (hds c hc)).mp (h c hc)
  · intro h c hc
    exact (digitValue_eq_zero (hds c hc)).mpr (h c hc)

theorem cleanInput_isDigit (inputStr : String) : ∀ c ∈ cleanInput inputStr, c.isDigit = true := by
  intro c hc
  exact (List.mem_filter.mp hc).2

/-! ### The key sum -/

theorem calculateKey_eq (inputStr : String) :
    calculateKey inputStr =
      if (cleanInput inputStr).isEmpty then .int 0 else keySum (parseInt (cleanInput inputStr)) :=
  rfl

theorem keySum_exponential (ds : List Char) :
    ((exponential ds).map toNumber).foldl (fun sum d => Num.add sum d) (.int 0) = .nan := by
  apply foldl_add_of_mem_nan
  rw [List.mem_map]
  refine ⟨'e', ?_, by decide⟩
  simp [exponential]

theorem keySum_finite_ne_zero {v : Nat} (hv : 0 < v) : keySum (.finite v) ≠ .int 0 := by
  have hs := shortest_pos hv
  simp only [keySum, numberToString, if_neg (Nat.pos_iff_ne_zero.mp hv)]
  split_ifs with hlen
  · rw [length_toDigits hs] at hlen
    rw [sum_toDigits hs hlen]
    have := digits_sum_pos hs
    intro h
    injection h with h
    simp only [Int.ofNat_eq_coe] at h
    omega
  · rw [keySum_exponential]
    simp

theorem keySum_infinity : keySum .infinity = .nan := by decide

theorem keySum_small {v : Nat} (hv : v < 10 ^ 15) :
    keySum (.finite v) = .int (Int.ofNat (Nat.digits 10 v).sum) := by
  by_cases h0 : v = 0
  · subst h0
    have h : keySum (.finite 0) = .int 0 := by decide
    simpa using h
  · have hpos : 0 < v := Nat.pos_of_ne_zero h0
    have h53 : v < 2 ^ 53 := lt_trans hv (by norm_num)
    have hlen : (Nat.toDigits 10 v).length ≤ 21 := by
      rw [length_toDigits hpos]
      have h1 := Nat.base_pow_length_digits_le 10 v (by norm_num) h0
      by_contra hc
      have h2 : 10 ^ 16 ≤ 10 ^ (Nat.digits 10 v).length :=
        Nat.pow_le_pow_right (by norm_num) (by omega)
      omega
    simp only [keySum, numberToString, if_neg h0, shortest_small h53, if_pos hlen]
    rw [length_toDigits hpos] at hlen
    exact sum_toDigits hpos hlen

/-! ## The byte loop -/

theorem toUint8_shiftedByte_val (b : Byte) (S : Int) (hS : |S| ≤ 2 ^ 53 - 255) :
    ((toUint8 (shiftedByte b (.int S))).val : Int) = ((b.val : Int) + S) % 256 := by
  rw [shiftedByte_int b S hS]
  simp only [toUint8]
  omega

theorem shift_int (mode : Mode) (S : Int) :
    shift mode (.int S) = .int (effectiveShift mode S) := by
  cases mode <;> rfl

theorem abs_effectiveShift (mode : Mode) (S : Int) : |effectiveShift mode S| = |S| := by
  cases mode
  · exact abs_neg S
  · rfl

theorem effectiveShift_emod_iff (mode : Mode) (S T : Int) :
    effectiveShift mode S % 256 = effectiveShift mode T % 256 ↔ S % 256 = T % 256 := by
  cases mode
  · simp only [effectiveShift]
    omega
  · rfl

theorem toUint8_shiftedByte_eq_iff (b : Byte) (S T : Int)
    (hS : |S| ≤ 2 ^ 53 - 255) (hT : |T| ≤ 2 ^ 53 - 255) :
    toUint8 (shiftedByte b (.int S)) = toUint8 (shiftedByte b (.int T)) ↔ S % 256 = T % 256 := by
  rw [Fin.ext_iff, ← Int.ofNat_inj]
  simp only [Int.ofNat_eq_coe, toUint8_shiftedByte_val _ _ hS, toUint8_shiftedByte_val _ _ hT]
  omega

theorem toUint8_shiftedByte_self_iff (b : Byte) (S : Int) (hS : |S| ≤ 2 ^ 53 - 255) :
    toUint8 (shiftedByte b (.int S)) = b ↔ S % 256 = 0 := by
  rw [Fin.ext_iff, ← Int.ofNat_inj]
  simp only [Int.ofNat_eq_coe, toUint8_shiftedByte_val _ _ hS]
  have := b.isLt
  omega

theorem toUint8_shiftedByte_inverse (b : Byte) (S T : Int)
    (hS : |S| ≤ 2 ^ 53 - 255) (hT : |T| ≤ 2 ^ 53 - 255) (h : S % 256 = T % 256) :
    toUint8 (shiftedByte (toUint8 (shiftedByte b (.int (-S)))) (.int T)) = b := by
  rw [Fin.ext_iff, ← Int.ofNat_inj]
  simp only [Int.ofNat_eq_coe, toUint8_shiftedByte_val _ _ hT,
    toUint8_shiftedByte_val _ _ ((abs_neg S).le.trans hS)]
  have := b.isLt
  omega

theorem processBytes_inverse (B : List Byte) (S T : Int)
    (hS : |S| ≤ 2 ^ 53 - 255) (hT : |T| ≤ 2 ^ 53 - 255) (h : S % 256 = T % 256) :
    processBytes (processBytes B (shift .encrypt (.int S))) (shift .decrypt (.int T)) = B := by
  rw [processBytes_eq_map, processBytes_eq_map, List.map_map]
  conv_rhs => rw [← List.map_id B]
  apply List.map_congr_left
  intro b _
  exact toUint8_shiftedByte_inverse b S T hS hT h

theorem processBytes_of_multiple (B : List Byte) (mode : Mode) (S : Int)
    (hS : |S| ≤ 2 ^ 53 - 255) (h : S % 256 = 0) :
    processBytes B (shift mode (.int S)) = B := by
  rw [processBytes_eq_map, shift_int]
  conv_rhs => rw [← List.map_id B]
  apply List.map_congr_left
  intro b _
  apply (toUint8_shiftedByte_self_iff b _ ((abs_effectiveShift mode S).le.trans hS)).mpr
  cases mode
  · simp only [effectiveShift]
    omega
  · exact h

/-- The element at index `i` of the output of the loop. -/
theorem getElem?_processBytes (B : List Byte) (s : Num) (i : Fin B.length) :
    (processBytes B s)[i.val]? = some (toUint8 (shiftedByte (B.get i) s)) := by
  rw [processBytes_eq_map, List.getElem?_map, List.getElem?_eq_getElem i.isLt]
  rfl

/-- C1, as the claim states it, fails on the code: with the shift `2^53` the
bytes `[0, 1, 2, 3]` are encrypted to themselves (`b - 2^53` is exact) and then
decrypted to `[0, 0, 2, 4]`, because the doubles `1 + 2^53` and `3 + 2^53` are
`2^53` and `2^53 + 4`; already with the shift `2^53 - 254` the byte 1 is
encrypted to 255 and decrypted to 0. -/
theorem processBytes_round_trip_fails :
    processBytes [0, 1, 2, 3] (shift .encrypt (.int (2 ^ 53))) = [0, 1, 2, 3] ∧
    processBytes (processBytes [0, 1, 2, 3] (shift .encrypt (.int (2 ^ 53))))
      (shift .decrypt (.int (2 ^ 53))) = [0, 0, 2, 4] ∧
    processBytes [1] (shift .encrypt (.int (2 ^ 53 - 254))) = [255] ∧
    processBytes [255] (shift .decrypt (.int (2 ^ 53 - 254))) = [0] ∧
    ¬ ∀ (B : List Byte) (S : Int),
      processBytes (processBytes B (shift .encrypt (.int S))) (shift .decrypt (.int S)) = B := by
  refine ⟨by decide, by decide, by decide, by decide, fun h => ?_⟩
  exact absurd (h [0, 1, 2, 3] (2 ^ 53)) (by decide)

/-- C1, amended: for every byte sequence and every integer `S` with
`|S| ≤ 2^53 - 255`, the byte loop of `processFile` in encrypt mode stores
`(b - S) mod 256` for the byte `b` at each index, and the loop in decrypt mode
(shift `+S`) applied to that output gives back the byte sequence it started
from. -/
theorem processBytes_round_trip (B : List Byte) (S : Int) (hS : |S| ≤ 2 ^ 53 - 255) :
    (∀ i : Fin B.length, ∃ c : Byte,
      (processBytes B (shift .encrypt (.int S)))[i.val]? = some c ∧
      (c.val : Int) = (((B.get i).val : Int) - S) % 256) ∧
    processBytes (processBytes B (shift .encrypt (.int S))) (shift .decrypt (.int S)) = B := by
  refine ⟨fun i => ⟨_, getElem?_processBytes B _ i, ?_⟩, processBytes_inverse B S S hS hS rfl⟩
  rw [shift_int, toUint8_shiftedByte_val _ _ ((abs_effectiveShift .encrypt S).le.trans hS)]
  rfl

/-- C1, amended, at the largest shift it covers. -/
theorem processBytes_round_trip_witness :
    |(9007199254740737 : Int)| ≤ 2 ^ 53 - 255 ∧
    processBytes (processBytes [0, 1, 254, 255] (shift .encrypt (.int 9007199254740737)))
      (shift .decrypt (.int 9007199254740737)) = [0, 1, 254, 255] :=
  ⟨by decide, (processBytes_round_trip [0, 1, 254, 255] 9007199254740737 (by decide)).2⟩

/-- C2, as the claim states it, fails on the code: for the byte 1 and `S = 2^53`
in decrypt mode, `(1 + 2^53) & 0xFF` is 0 (the double `1 + 2^53` is `2^53`),
while `(1 + 2^53) mod 256` is 1; the same happens for the byte 255 already at
`S = 2^53 - 254`. -/
theorem shiftedByte_formula_fails :
    shiftedByte 1 (shift .decrypt (.int (2 ^ 53))) = 0 ∧
    (((1 : Byte).val : Int) + effectiveShift .decrypt (2 ^ 53)) % 256 = 1 ∧
    shiftedByte 255 (shift .decrypt (.int (2 ^ 53 - 254))) = 0 ∧
    (((255 : Byte).val : Int) + effectiveShift .decrypt (2 ^ 53 - 254)) % 256 = 1 ∧
    ¬ ∀ (b : Byte) (S : Int) (mode : Mode),
      shiftedByte b (shift mode (.int S)) = ((b.val : Int) + effectiveShift mode S) % 256 := by
  refine ⟨by decide, by decide, by decide, by decide, fun h => ?_⟩
  exact absurd (h 1 (2 ^ 53) .decrypt) (by decide)

/-- C2, amended: for every byte `b`, every integer `S` with `|S| ≤ 2^53 - 255`
and either mode, the value `(b + shift) & 0xFF` that `processFile` computes is
`(b + effectiveShift) mod 256` with the non-negative remainder
(`effectiveShift = -S` when encrypting, `+S` when decrypting), and it is the
byte that is stored; for every shift whatever the value lies in `0..255`; byte
`0x00` with `S = 1` becomes `0x01` when decrypting and `0xFF` when encrypting. -/
theorem shiftedByte_formula :
    (∀ (b : Byte) (S : Int) (mode : Mode), |S| ≤ 2 ^ 53 - 255 →
      shiftedByte b (shift mode (.int S)) = ((b.val : Int) + effectiveShift mode S) % 256 ∧
      ((toUint8 (shiftedByte b (shift mode (.int S)))).val : Int) =
        shiftedByte b (shift mode (.int S))) ∧
    (∀ (b : Byte) (shift : Num), 0 ≤ shiftedByte b shift ∧ shiftedByte b shift ≤ 255) ∧
    effectiveShift .encrypt 1 = -1 ∧ effectiveShift .decrypt 1 = 1 ∧
    processBytes [0x00] (shift .decrypt (.int 1)) = [0x01] ∧
    processBytes [0x00] (shift .encrypt (.int 1)) = [0xFF] := by
  refine ⟨?_, shiftedByte_range, rfl, rfl, by decide, by decide⟩
  intro b S mode hS
  have hE : |effectiveShift mode S| ≤ 2 ^ 53 - 255 := (abs_effectiveShift mode S).le.trans hS
  rw [shift_int, toUint8_shiftedByte_val _ _ hE, shiftedByte_int _ _ hE]
  exact ⟨rfl, rfl⟩

/-- C2, amended, at the byte 255 and the largest shift it covers, where the
sum is `2^53`. -/
theorem shiftedByte_formula_witness :
    |(9007199254740737 : Int)| ≤ 2 ^ 53 - 255 ∧
    shiftedByte 255 (shift .decrypt (.int 9007199254740737)) =
      (((255 : Byte).val : Int) + effectiveShift .decrypt 9007199254740737) % 256 :=
  ⟨by decide, (shiftedByte_formula.1 255 9007199254740737 .decrypt (by decide)).1⟩

/-- C6: the output of the byte loop has the length of its input, its `i`-th
element is the transform of the `i`-th element of the input, and the empty
sequence is transformed to the empty sequence. -/
theorem processBytes_length_and_order (B : List Byte) (S : Int) (mode : Mode) :
    (processBytes B (shift mode (.int S))).length = B.length ∧
    (∀ i : Fin B.length, (processBytes B (shift mode (.int S)))[i.val]? =
      some (toUint8 (shiftedByte (B.get i) (shift mode (.int S))))) ∧
    processBytes [] (shift mode (.int S)) = [] := by
  refine ⟨?_, ?_, rfl⟩
  · rw [processBytes_eq_map, List.length_map]
  · intro i
    rw [processBytes_eq_map, List.getElem?_map, List.getElem?_eq_getElem i.isLt]
    rfl

/-- C7: run with a derived key of 0, the byte loop returns its input unchanged
in either mode. -/
theorem processBytes_zero_key (B : List Byte) (mode : Mode) :
    processBytes B (shift mode (.int 0)) = B :=
  processBytes_of_multiple B mode 0 (by decide) rfl

/-- C10, as the claim states it, fails on the code: the shifts 0 and `2^53`
are congruent modulo 256, yet in decrypt mode the byte 1 is stored as 1 with
the first and as 0 with the second. -/
theorem shift_modulo_256_fails :
    (0 : Int) % 256 = 2 ^ 53 % 256 ∧
    processBytes [1] (shift .decrypt (.int 0)) = [1] ∧
    processBytes [1] (shift .decrypt (.int (2 ^ 53))) = [0] ∧
    ¬ ∀ (b : Byte) (S T : Int) (mode : Mode),
      (processBytes [b] (shift mode (.int S)) = processBytes [b] (shift mode (.int T)) ↔
        S % 256 = T % 256) := by
  refine ⟨by decide, by decide, by decide, fun h => ?_⟩
  exact absurd ((h 1 0 (2 ^ 53) .decrypt).mpr (by decide)) (by decide)

/-- C10, amended: among the integer shifts of magnitude at most `2^53 - 255`
only the shift modulo 256 matters for the byte loop: two such shifts store the
same byte at an index of the output exactly when they are congruent modulo
256; such a shift that is a non-zero multiple of 256 passes the test
`calculatedKey === 0` and leaves every byte unchanged; what was encrypted with
`S` is restored by decrypting with any such `T` congruent to `S`. -/
theorem shift_modulo_256 :
    (∀ (B : List Byte) (i : Fin B.length) (S T : Int) (mode : Mode),
      |S| ≤ 2 ^ 53 - 255 → |T| ≤ 2 ^ 53 - 255 →
      ((processBytes B (shift mode (.int S)))[i.val]? =
          (processBytes B (shift mode (.int T)))[i.val]? ↔ S % 256 = T % 256)) ∧
    (∀ S : Int, |S| ≤ 2 ^ 53 - 255 → S ≠ 0 → S % 256 = 0 →
      (Num.int S).strictEqZero = false ∧
      ∀ (B : List Byte) (mode : Mode), processBytes B (shift mode (.int S)) = B) ∧
    (∀ (B : List Byte) (S T : Int), |S| ≤ 2 ^ 53 - 255 → |T| ≤ 2 ^ 53 - 255 →
      S % 256 = T % 256 →
      processBytes (processBytes B (shift .encrypt (.int S))) (shift .decrypt (.int T)) = B) := by
  refine ⟨?_, ?_, processBytes_inverse⟩
  · intro B i S T mode hS hT
    rw [getElem?_processBytes, getElem?_processBytes, Option.some.injEq, shift_int, shift_int,
      toUint8_shiftedByte_eq_iff _ _ _ ((abs_effectiveShift mode S).le.trans hS)
        ((abs_effectiveShift mode T).le.trans hT)]
    exact effectiveShift_emod_iff mode S T
  · intro S hS h0 h
    refine ⟨?_, fun B mode => processBytes_of_multiple B mode S hS h⟩
    simpa [Num.strictEqZero] using h0

/-- C10, amended, at concrete inputs: the shifts 3 and 259 store the same
byte and 3 and 4 do not; the shift 256 is not rejected and leaves the bytes
alone; 257 undoes what 1 did. -/
theorem shift_modulo_256_witness :
    (processBytes [0, 7, 255] (shift .encrypt (.int 3)))[1]? =
      (processBytes [0, 7, 255] (shift .encrypt (.int 259)))[1]? ∧
    (processBytes [0, 7, 255] (shift .encrypt (.int 3)))[1]? ≠
      (processBytes [0, 7, 255] (shift .encrypt (.int 4)))[1]? ∧
    (Num.int 256).strictEqZero = false ∧
    processBytes [0, 7, 255] (shift .encrypt (.int 256)) = [0, 7, 255] ∧
    processBytes (processBytes [0, 7, 255] (shift .encrypt (.int 1)))
      (shift .decrypt (.int 257)) = [0, 7, 255] :=
  ⟨(shift_modulo_256.1 [0, 7, 255] ⟨1, by decide⟩ 3 259 .encrypt (by decide) (by decide)).mpr
      (by decide),
   fun h => absurd ((shift_modulo_256.1 [0, 7, 255] ⟨1, by decide⟩ 3 4 .encrypt (by decide)
      (by decide)).mp h) (by decide),
   (shift_modulo_256.2.1 256 (by decide) (by decide) (by decide)).1,
   (shift_modulo_256.2.1 256 (by decide) (by decide) (by decide)).2 _ _,
   shift_modulo_256.2.2 _ 1 257 (by decide) (by decide) (by decide)⟩

/-! ## Key derivation -/

/-- Up to 15 digit characters, `calculateKey` is the digit sum of the key. -/
theorem calculateKey_of_few_digits (inputStr : String)
    (h : inputStr.data.countP Char.isDigit ≤ 15) :
    calculateKey inputStr = .int (Int.ofNat (digitCharSum inputStr)) := by
  have hds := cleanInput_isDigit inputStr
  have hlen : (cleanInput inputStr).length ≤ 15 := by
    rw [cleanInput, ← List.countP_eq_length_filter]
    exact h
  rw [calculateKey_eq]
  split_ifs with hnil
  · have : cleanInput inputStr = [] := List.isEmpty_iff.mp hnil
    simp only [cleanInput] at this
    simp [digitCharSum, this]
  · have hlt : mathInt (cleanInput inputStr) < 10 ^ 15 :=
      lt_of_lt_of_le (mathInt_lt _ hds) (Nat.pow_le_pow_right (by norm_num) hlen)
    rw [parseInt, toDouble_of_lt (lt_trans hlt (by norm_num)), keySum_small hlt,
      digits_sum_mathInt _ hds]
    rfl

theorem digitCharSum_le (inputStr : String) :
    digitCharSum inputStr ≤ 9 * inputStr.data.countP Char.isDigit := by
  rw [List.countP_eq_length_filter, digitCharSum]
  generalize hl : inputStr.data.filter Char.isDigit = l
  have hds : ∀ c ∈ l, c.isDigit = true := by
    intro c hc
    rw [← hl] at hc
    exact (List.mem_filter.mp hc).2
  clear hl
  induction l with
  | nil => simp
  | cons c l ih =>
    have := digitValue_lt (hds c (List.mem_cons_self _ _))
    have := ih (fun x hx => hds x (List.mem_cons_of_mem _ hx))
    simp only [List.map_cons, List.sum_cons, List.length_cons]
    omega

/-- The keys that derive to 0 are those without a digit other than `0`. -/
theorem calculateKey_eq_zero_iff (inputStr : String) :
    calculateKey inputStr = .int 0 ↔ ∀ c ∈ inputStr.data, c.isDigit = true → c = '0' := by
  have hds := cleanInput_isDigit inputStr
  have hall : (∀ c ∈ cleanInput inputStr, c = '0') ↔
      ∀ c ∈ inputStr.data, c.isDigit = true → c = '0' := by
    simp only [cleanInput, List.mem_filter, and_imp]
  rw [← hall, ← mathInt_eq_zero _ hds, calculateKey_eq]
  split_ifs with hnil
  · have : cleanInput inputStr = [] := List.isEmpty_iff.mp hnil
    rw [this]
    simp [mathInt]
  · rw [parseInt]
    constructor
    · intro h
      by_contra h0
      have hpos : 0 < mathInt (cleanInput inputStr) := Nat.pos_of_ne_zero h0
      cases hv : toDouble (mathInt (cleanInput inputStr)) with
      | infinity =>
        rw [hv, keySum_infinity] at h
        exact absurd h (by simp)
      | finite v =>
        rw [hv] at h
        exact keySum_finite_ne_zero (toDouble_pos hpos hv) h
    · intro h
      rw [h]
      decide

/-- C3, evaluated on the code: the 22-digit key `1000000000000000000001` has
digit sum 2, but `parseInt` rounds it to `1e21`, `toString` renders that as
`1e+21`, and `calculateKey` returns `NaN`; `NaN` passes the test
`calculatedKey === 0`, and the byte loop then writes 0 for every byte.  The
16-digit key `9007199254740993` has digit sum 78 and `calculateKey` returns
77. -/
theorem calculateKey_long_key :
    digitCharSum "1000000000000000000001" = 2 ∧
    calculateKey "1000000000000000000001" = .nan ∧
    processFile (some ⟨"a.bin", [1, 2, 3]⟩) "1000000000000000000001" .encrypt =
      .downloaded "a.bin.enc" [0, 0, 0] ∧
    digitCharSum "9007199254740993" = 78 ∧
    calculateKey "9007199254740993" = .int 77 := by
  refine ⟨by decide, by decide, by decide, by decide, by decide⟩

/-- C4, as the claim states it, fails on the code: the empty key contains no
digit other than `0` and `calculateKey` returns 0 for it, yet `processFile`
does not return at the check `calculatedKey === 0`: it has returned before, at
the check `!keyInput` of lines 35-38. -/
theorem key_rejected_iff_zero_fails :
    (∀ c ∈ "".data, c.isDigit = true → c = '0') ∧
    calculateKey "" = .int 0 ∧
    processFile (some ⟨"a.bin", [1, 2, 3]⟩) "" .encrypt = .noKeyEntered ∧
    ¬ ∀ (keyInput : String) (file : File) (mode : Mode),
      ((calculateKey keyInput = .int 0 ∧ processFile (some file) keyInput mode = .keyIsZero) ↔
        ∀ c ∈ keyInput.data, c.isDigit = true → c = '0') := by
  refine ⟨by decide, by decide, by decide, fun h => ?_⟩
  exact absurd ((h "" ⟨"a.bin", [1, 2, 3]⟩ .encrypt).mpr (by decide)).2 (by decide)

/-- C4, amended: `calculateKey` returns 0 exactly for the key strings that
contain no digit other than `0`; `processFile` reaches the byte loop exactly
for the other key strings; for a non-empty key with no digit other than `0` it
returns at the check `calculatedKey === 0`, and for the empty key it returns
one check earlier, at `!keyInput`; the keys `abc`, `000` and `0000` derive to
0. -/
theorem key_rejected_iff_zero :
    (∀ keyInput : String,
      (calculateKey keyInput = .int 0 ↔ ∀ c ∈ keyInput.data, c.isDigit = true → c = '0') ∧
      (∀ (file : File) (mode : Mode),
        (processFile (some file) keyInput mode =
            processWithKey file (calculateKey keyInput) mode ↔
          ∃ c ∈ keyInput.data, c.isDigit = true ∧ c ≠ '0') ∧
        (keyInput.data ≠ [] →
          (processFile (some file) keyInput mode = .keyIsZero ↔
            ∀ c ∈ keyInput.data, c.isDigit = true → c = '0')) ∧
        (keyInput.data = [] → processFile (some file) keyInput mode = .noKeyEntered))) ∧
    calculateKey "abc" = .int 0 ∧ calculateKey "000" = .int 0 ∧
    calculateKey "0000" = .int 0 := by
  refine ⟨?_, by decide, by decide, by decide⟩
  intro keyInput
  have hz := calculateKey_eq_zero_iff keyInput
  have hstrict : (calculateKey keyInput).strictEqZero = true ↔ calculateKey keyInput = .int 0 := by
    cases calculateKey keyInput with
    | int v => simp [Num.strictEqZero]
    | inf s => simp [Num.strictEqZero]
    | nan => simp [Num.strictEqZero]
  refine ⟨hz, fun file mode => ⟨?_, ?_, ?_⟩⟩
  · have hne : (∃ c ∈ keyInput.data, c.isDigit = true ∧ c ≠ '0') ↔
        ¬ calculateKey keyInput = .int 0 := by
      rw [hz]
      push_neg
      rfl
    rw [hne]
    simp only [processFile]
    by_cases hnil : keyInput.data = []
    · have h0 : calculateKey keyInput = .int 0 := hz.mpr (by simp [hnil])
      simp [hnil, h0, processWithKey]
    · have hemp : keyInput.data.isEmpty = false := by
        cases hd : keyInput.data with
        | nil => exact absurd hd hnil
        | cons a l => rfl
      by_cases h0 : calculateKey keyInput = .int 0
      · simp [hemp, h0, processWithKey, Num.strictEqZero]
      · have : (calculateKey keyInput).strictEqZero = false := by
          rw [← Bool.not_eq_true, hstrict]
          exact h0
        simp [hemp, this, h0]
  · intro hnil
    have hemp : keyInput.data.isEmpty = false := by
      cases hd : keyInput.data with
      | nil => exact absurd hd hnil
      | cons a l => rfl
    rw [← hz]
    simp only [processFile, hemp]
    by_cases h0 : calculateKey keyInput = .int 0
    · simp [h0, Num.strictEqZero]
    · have : (calculateKey keyInput).strictEqZero = false := by
        rw [← Bool.not_eq_true, hstrict]
        exact h0
      simp [this, h0, processWithKey]
  · intro hnil
    simp [processFile, hnil]

/-- C4, amended, at concrete inputs: `000` is rejected at the zero check, `a1`
is accepted. -/
theorem key_rejected_iff_zero_witness :
    processFile (some ⟨"f", [1]⟩) "000" .encrypt = .keyIsZero ∧
    processFile (some ⟨"f", [1]⟩) "a1" .encrypt =
      processWithKey ⟨"f", [1]⟩ (calculateKey "a1") .encrypt :=
  ⟨(((key_rejected_iff_zero.1 "000").2 ⟨"f", [1]⟩ .encrypt).2.1 (by decide)).mpr (by decide),
   (((key_rejected_iff_zero.1 "a1").2 ⟨"f", [1]⟩ .encrypt).1).mpr ⟨'1', by decide, by decide⟩⟩

/-- C5: for a key string with at most 15 digit characters `calculateKey`
returns the sum of the values of those characters, whatever else is
interleaved and however many of them are leading zeros; `1234` gives 10,
`a1b2c3` gives 6, `19` gives 10. -/
theorem calculateKey_digit_sum :
    (∀ inputStr : String, inputStr.data.countP Char.isDigit ≤ 15 →
      calculateKey inputStr = .int (Int.ofNat (digitCharSum inputStr))) ∧
    calculateKey "1234" = .int 10 ∧ calculateKey "a1b2c3" = .int 6 ∧
    calculateKey "19" = .int 10 :=
  ⟨calculateKey_of_few_digits, by decide, by decide, by decide⟩

/-- C5, at a concrete input with signs, blanks, letters and leading zeros. -/
theorem calculateKey_digit_sum_witness :
    "-00 7x 0.5e+9".data.countP Char.isDigit ≤ 15 ∧
    calculateKey "-00 7x 0.5e+9" = .int 21 :=
  ⟨by decide, calculateKey_digit_sum.1 "-00 7x 0.5e+9" (by decide)⟩

/-- C9: a key string with at most 15 digit characters that passes the test
`calculatedKey === 0` derives to an integer `S` in `1..135`, which is not a
multiple of 256; `(b - S) & 0xFF` and `(b + S) & 0xFF` differ from `b` for
every byte `b`; so in either mode the byte loop returns as many bytes as it
was given, and the byte it stores at each index differs from the byte it read
there. -/
theorem accepted_key_changes_every_byte (keyInput : String)
    (hlen : keyInput.data.countP Char.isDigit ≤ 15)
    (hkey : (calculateKey keyInput).strictEqZero = false) :
    ∃ S : Int, calculateKey keyInput = .int S ∧ 1 ≤ S ∧ S ≤ 135 ∧ S % 256 ≠ 0 ∧
      (∀ b : Byte, shiftedByte b (.int (-S)) ≠ (b.val : Int) ∧
        shiftedByte b (.int S) ≠ (b.val : Int)) ∧
      ∀ (mode : Mode) (B : List Byte),
        (processBytes B (shift mode (calculateKey keyInput))).length = B.length ∧
        ∀ i : Fin B.length, ∃ c : Byte,
          (processBytes B (shift mode (calculateKey keyInput)))[i.val]? = some c ∧
          c ≠ B.get i := by
  have hS := calculateKey_of_few_digits keyInput hlen
  have hle := digitCharSum_le keyInput
  rw [hS] at hkey
  simp only [Num.strictEqZero, Int.ofNat_eq_coe, beq_eq_false_iff_ne, ne_eq] at hkey
  simp only [Int.ofNat_eq_coe] at hS
  have h1 : (1 : Int) ≤ (digitCharSum keyInput : Int) := by omega
  have h2 : (digitCharSum keyInput : Int) ≤ 135 := by omega
  have hbound : ∀ mode, |effectiveShift mode (digitCharSum keyInput : Int)| ≤ 2 ^ 53 - 255 := by
    intro mode
    rw [abs_effectiveShift, abs_le]
    constructor <;> omega
  refine ⟨(digitCharSum keyInput : Int), hS, h1, h2, by omega, ?_, ?_⟩
  · intro b
    have := b.isLt
    have he : shiftedByte b (.int (-(digitCharSum keyInput : Int))) = _ :=
      shiftedByte_int b _ (hbound .encrypt)
    have hd : shiftedByte b (.int (digitCharSum keyInput : Int)) = _ :=
      shiftedByte_int b _ (hbound .decrypt)
    simp only [effectiveShift] at he hd
    rw [he, hd]
    constructor <;> omega
  · intro mode B
    refine ⟨by rw [processBytes_eq_map, List.length_map], fun i => ⟨_, getElem?_processBytes B _ i, ?_⟩⟩
    rw [hS, shift_int, ne_eq, toUint8_shiftedByte_self_iff _ _ (hbound mode)]
    cases mode
    · simp only [effectiveShift]
      omega
    · simp only [effectiveShift]
      omega

/-- C9, at the key `19`. -/
theorem accepted_key_changes_every_byte_witness :
    ∃ S : Int, calculateKey "19" = .int S ∧ 1 ≤ S ∧ S ≤ 135 ∧ S % 256 ≠ 0 ∧
      (∀ b : Byte, shiftedByte b (.int (-S)) ≠ (b.val : Int) ∧
        shiftedByte b (.int S) ≠ (b.val : Int)) ∧
      ∀ (mode : Mode) (B : List Byte),
        (processBytes B (shift mode (calculateKey "19"))).length = B.length ∧
        ∀ i : Fin B.length, ∃ c : Byte,
          (processBytes B (shift mode (calculateKey "19")))[i.val]? = some c ∧
          c ≠ B.get i :=
  accepted_key_changes_every_byte "19" (by decide) (by decide)

/-! ## The download name -/

/-- C8: the name chosen in decrypt mode for a file that carries the name chosen
in encrypt mode for `n`, which is `n` followed by `.enc`, is `n`: the suffix
is stripped and the `decrypted_` branch is not taken; so a run of `processFile`
that encrypts a file named `n` offers `n.enc`, and a run that decrypts a file
of that name offers `n`. -/
theorem newName_round_trip (n : String) :
    newName n .encrypt = n ++ ".enc" ∧
    endsWithEnc (newName n .encrypt) = true ∧
    newName (newName n .encrypt) .decrypt = n ∧
    ∀ (B C : List Byte) (k l : Num),
      processWithKey ⟨n, B⟩ k .encrypt =
        .downloaded (n ++ ".enc") (processBytes B (shift .encrypt k)) ∧
      processWithKey ⟨n ++ ".enc", C⟩ l .decrypt =
        .downloaded n (processBytes C (shift .decrypt l)) := by
  have hends : endsWithEnc (n ++ ".enc") = true := by
    simp [endsWithEnc, List.isSuffixOf_iff_suffix]
  have hback : newName (n ++ ".enc") .decrypt = n := by
    simp only [newName, hends, if_true]
    have : (n ++ ".enc").data = n.data ++ ".enc".data := String.data_append n ".enc"
    rw [this]
    simp
  refine ⟨rfl, hends, hback, fun B C k l => ⟨rfl, ?_⟩⟩
  simp only [processWithKey, hback]

end EncryptionTool
